import Mathlib

/-!
# Verification of the BLS12-381 curve adapter (substrate `sp-arkworks` / `sp-crypto-ec-utils` core)

This file embeds the G1 data model and operations of the repository's
BLS12-381 adapter, and proves or refutes the frozen claims about it.

The embedding follows the Rust sources:
- `primitives/arkworks/curves/bls12_381/src/curves/g1.rs` (subgroup check,
  cofactor clearing, (de)serialization, MSM orchestration),
- `primitives/arkworks/curves/bls12_381/src/curves/mod.rs` and
  `primitives/arkworks/models/bls12/src/lib.rs` (pairing orchestration),
- `primitives/arkworks/bls12/src/lib.rs` (miller-loop round-trip assertion),
- `primitives/arkworks/src/lib.rs` (host-side pairing functions).

Field elements of `Fq` are represented as `ZMod pBLS`; machine-level byte
buffers are `List ℕ` with each entry `< 256`.  The underlying big-integer and
field arithmetic (supplied in Rust by `ark-ff`) is modelled by explicit
modular arithmetic; scalar multiplication (supplied by `ark-ec`) is modelled
by the affine chord-tangent group law and binary double-and-add.
-/

/-- The BLS12-381 base-field modulus `q` (381 bits), from the repository's
curve documentation (`primitives/arkworks/bls12_381/src/lib.rs`). -/
def pBLS : ℕ := 4002409555221667393417789825735904156556882819939007885332058136124031650490837864442687629129015664037894272559787

/-- The BLS12-381 scalar-field modulus `r`, from the repository's
curve documentation (`primitives/arkworks/bls12_381/src/lib.rs`). -/
def rBLS : ℕ := 52435875175126190479447740508185965837690552500527637822603658699938581184513

/-- The base field `Fq`. -/
abbrev Fq : Type := ZMod pBLS

/-- Fast modular exponentiation on `ℕ`, structurally recursive on a fuel
argument; computes `a ^ e % m` when `e < 2 ^ fuel`.  This mirrors the
square-and-multiply exponentiation used by the underlying field library. -/
def powMod (m : ℕ) : ℕ → ℕ → ℕ → ℕ
  | 0, _, _ => 1 % m
  | fuel + 1, a, e =>
    if e = 0 then 1 % m
    else
      let h := powMod m fuel a (e / 2)
      if e % 2 = 0 then h * h % m else h * h % m * a % m

theorem powMod_correct (m : ℕ) :
    ∀ fuel a e, e < 2 ^ fuel → powMod m fuel a e = a ^ e % m := by
  intro fuel
  induction fuel with
  | zero =>
    intro a e he
    have h0 : e = 0 := by simpa using Nat.lt_one_iff.mp (by simpa using he)
    subst h0
    simp [powMod]
  | succ f ih =>
    intro a e he
    by_cases hne : e = 0
    · subst hne; simp [powMod]
    · rw [pow_succ] at he
      have h2 : e / 2 < 2 ^ f := by omega
      have hrec := ih a (e / 2) h2
      have hsplit : a ^ e = a ^ (e / 2) * a ^ (e / 2) * a ^ (e % 2) := by
        rw [← pow_add, ← pow_add]
        congr 1
        omega
      simp only [powMod, if_neg hne, hrec]
      by_cases hmod : e % 2 = 0
      · rw [if_pos hmod, hsplit, hmod, pow_zero, mul_one]
        conv_rhs => rw [Nat.mul_mod]
      · rw [if_neg hmod, hsplit, (by omega : e % 2 = 1), pow_one]
        conv_lhs => rw [Nat.mul_mod, Nat.mod_mod]
        conv_rhs => rw [Nat.mul_mod, Nat.mul_mod (a ^ (e / 2)) (a ^ (e / 2)) m]

theorem powMod_lt (m : ℕ) (hm : 0 < m) :
    ∀ fuel a e, powMod m fuel a e < m := by
  intro fuel
  cases fuel with
  | zero => intro a e; exact Nat.mod_lt _ hm
  | succ f =>
    intro a e
    simp only [powMod]
    split
    · exact Nat.mod_lt _ hm
    · split
      · exact Nat.mod_lt _ hm
      · exact Nat.mod_lt _ hm

/-! ## Primality of the base-field modulus

`pBLS` is certified prime by a chain of Lucas certificates
(`lucas_primality`), one for each prime appearing in the recursive
factorisation of `pBLS - 1`. -/

/-- Bool-level Lucas certificate check: `a ^ (P-1) ≡ 1 (mod P)` and
`a ^ ((P-1)/q) ≢ 1 (mod P)` for each listed prime factor `q` of `P - 1`. -/
def lucasCheck (P a fuel : ℕ) (l : List ℕ) : Bool :=
  (powMod P fuel a (P - 1) == 1) && l.all fun q => powMod P fuel a ((P - 1) / q) != 1

theorem prime_dvd_list_prod {q : ℕ} (hq : q.Prime) :
    ∀ l : List ℕ, q ∣ l.prod → ∃ x ∈ l, q ∣ x := by
  intro l
  induction l with
  | nil =>
    intro h
    simp only [List.prod_nil, Nat.dvd_one] at h
    exact absurd h hq.ne_one
  | cons a t ih =>
    intro h
    rw [List.prod_cons] at h
    rcases (Nat.Prime.dvd_mul hq).mp h with h1 | h1
    · exact ⟨a, List.mem_cons_self a t, h1⟩
    · obtain ⟨x, hx, hdvd⟩ := ih h1
      exact ⟨x, List.mem_cons_of_mem a hx, hdvd⟩

/-- A verified Lucas certificate implies primality. -/
theorem lucas_list (P a fuel : ℕ) (l : List ℕ) (hP : 1 < P) (hfuel : P - 1 < 2 ^ fuel)
    (hprod : l.prod = P - 1) (hl : ∀ x ∈ l, Nat.Prime x)
    (hc : lucasCheck P a fuel l = true) : Nat.Prime P := by
  have hP0 : 0 < P := by omega
  rw [lucasCheck, Bool.and_eq_true, beq_iff_eq, List.all_eq_true] at hc
  obtain ⟨h1, hall⟩ := hc
  have cast_pow_eq : ∀ e : ℕ, e < 2 ^ fuel →
      (a : ZMod P) ^ e = ((powMod P fuel a e : ℕ) : ZMod P) := by
    intro e he
    rw [powMod_correct P fuel a e he, ZMod.natCast_mod, Nat.cast_pow]
  apply lucas_primality P (a : ZMod P)
  · rw [cast_pow_eq (P - 1) hfuel, h1, Nat.cast_one]
  · intro q hq hdvd
    have hqmem : q ∈ l := by
      obtain ⟨x, hx, hqx⟩ := prime_dvd_list_prod hq l (hprod ▸ hdvd)
      have := (Nat.prime_dvd_prime_iff_eq hq (hl x hx)).mp hqx
      rwa [this]
    have hne := bne_iff_ne.mp (hall q hqmem)
    intro heq
    apply hne
    rw [cast_pow_eq ((P - 1) / q) (lt_of_le_of_lt (Nat.div_le_self _ _) hfuel)] at heq
    have hvlt : powMod P fuel a ((P - 1) / q) < P := powMod_lt P hP0 fuel a _
    have := congrArg ZMod.val heq
    rwa [ZMod.val_natCast_of_lt hvlt, ZMod.val_one'' (by omega)] at this

set_option maxRecDepth 40000

theorem prime_1686913 : Nat.Prime 1686913 := by
  apply lucas_list 1686913 10 400 [2, 2, 2, 2, 2, 2, 2, 3, 23, 191] (by norm_num) (by norm_num) (by decide) ?_ (by decide)
  intro x hx
  fin_cases hx <;> first
    | norm_num

theorem prime_51376543 : Nat.Prime 51376543 := by
  apply lucas_list 51376543 3 400 [2, 3, 7, 151, 8101] (by norm_num) (by norm_num) (by decide) ?_ (by decide)
  intro x hx
  fin_cases hx <;> first
    | norm_num

theorem prime_52437899 : Nat.Prime 52437899 := by
  apply lucas_list 52437899 2 400 [2, 43, 609743] (by norm_num) (by norm_num) (by decide) ?_ (by decide)
  intro x hx
  fin_cases hx <;> first
    | norm_num

theorem prime_475709467 : Nat.Prime 475709467 := by
  apply lucas_list 475709467 2 400 [2, 3, 47, 1686913] (by norm_num) (by norm_num) (by decide) ?_ (by decide)
  intro x hx
  fin_cases hx <;> first
    | exact prime_1686913
    | norm_num

theorem prime_927093389 : Nat.Prime 927093389 := by
  apply lucas_list 927093389 3 400 [2, 2, 13, 409, 43591] (by norm_num) (by norm_num) (by decide) ?_ (by decide)
  intro x hx
  fin_cases hx <;> first
    | norm_num

theorem prime_13090036741 : Nat.Prime 13090036741 := by
  apply lucas_list 13090036741 10 400 [2, 2, 3, 5, 11, 47, 421987] (by norm_num) (by norm_num) (by decide) ?_ (by decide)
  intro x hx
  fin_cases hx <;> first
    | norm_num

theorem prime_43670061551 : Nat.Prime 43670061551 := by
  apply lucas_list 43670061551 7 400 [2, 5, 5, 17, 51376543] (by norm_num) (by norm_num) (by decide) ?_ (by decide)
  intro x hx
  fin_cases hx <;> first
    | exact prime_51376543
    | norm_num

theorem prime_9272813673901 : Nat.Prime 9272813673901 := by
  apply lucas_list 9272813673901 2 400 [2, 2, 3, 5, 5, 7, 7577, 582767] (by norm_num) (by norm_num) (by decide) ?_ (by decide)
  intro x hx
  fin_cases hx <;> first
    | norm_num

theorem prime_64881703735777 : Nat.Prime 64881703735777 := by
  apply lucas_list 64881703735777 5 400 [2, 2, 2, 2, 2, 3, 3, 3, 3, 3, 3, 3, 927093389] (by norm_num) (by norm_num) (by decide) ?_ (by decide)
  intro x hx
  fin_cases hx <;> first
    | exact prime_927093389
    | norm_num

theorem prime_1928745244171409 : Nat.Prime 1928745244171409 := by
  apply lucas_list 1928745244171409 3 400 [2, 2, 2, 2, 13, 9272813673901] (by norm_num) (by norm_num) (by decide) ?_ (by decide)
  intro x hx
  fin_cases hx <;> first
    | exact prime_9272813673901
    | norm_num

theorem prime_7259797099061183477 : Nat.Prime 7259797099061183477 := by
  apply lucas_list 7259797099061183477 2 400 [2, 2, 941, 1928745244171409] (by norm_num) (by norm_num) (by decide) ?_ (by decide)
  intro x hx
  fin_cases hx <;> first
    | exact prime_1928745244171409
    | norm_num

theorem prime_2584487767265781317813 : Nat.Prime 2584487767265781317813 := by
  apply lucas_list 2584487767265781317813 2 400 [2, 2, 89, 7259797099061183477] (by norm_num) (by norm_num) (by decide) ?_ (by decide)
  intro x hx
  fin_cases hx <;> first
    | exact prime_7259797099061183477
    | norm_num

theorem prime_3819663927398918131021 : Nat.Prime 3819663927398918131021 := by
  apply lucas_list 3819663927398918131021 6 400 [2, 2, 3, 3, 5, 19, 113, 755057, 13090036741] (by norm_num) (by norm_num) (by decide) ?_ (by decide)
  intro x hx
  fin_cases hx <;> first
    | exact prime_13090036741
    | norm_num

theorem prime_92691255082156974996979 : Nat.Prime 92691255082156974996979 := by
  apply lucas_list 92691255082156974996979 3 400 [2, 3, 31, 467, 16447, 64881703735777] (by norm_num) (by norm_num) (by decide) ?_ (by decide)
  intro x hx
  fin_cases hx <;> first
    | exact prime_64881703735777
    | norm_num

theorem prime_1125266252156850182658904441386709967 : Nat.Prime 1125266252156850182658904441386709967 := by
  apply lucas_list 1125266252156850182658904441386709967 5 400 [2, 3373, 43670061551, 3819663927398918131021] (by norm_num) (by norm_num) (by decide) ?_ (by decide)
  intro x hx
  fin_cases hx <;> first
    | exact prime_43670061551
    | exact prime_3819663927398918131021
    | norm_num

theorem prime_15778400344354997994418419698270088123916926905054652752758194827714659 : Nat.Prime 15778400344354997994418419698270088123916926905054652752758194827714659 := by
  apply lucas_list 15778400344354997994418419698270088123916926905054652752758194827714659 2 400 [2, 3, 53, 475709467, 92691255082156974996979, 1125266252156850182658904441386709967] (by norm_num) (by norm_num) (by decide) ?_ (by decide)
  intro x hx
  fin_cases hx <;> first
    | exact prime_475709467
    | exact prime_92691255082156974996979
    | exact prime_1125266252156850182658904441386709967
    | norm_num

theorem pBLS_prime : Nat.Prime pBLS := by
  apply lucas_list pBLS 2 400 [2, 3, 3, 11, 23, 47, 10177, 859267, 52437899, 2584487767265781317813, 15778400344354997994418419698270088123916926905054652752758194827714659] (by norm_num [pBLS]) (by norm_num [pBLS]) (by decide) ?_ (by decide)
  intro x hx
  fin_cases hx <;> first
    | exact prime_52437899
    | exact prime_2584487767265781317813
    | exact prime_15778400344354997994418419698270088123916926905054652752758194827714659
    | norm_num


instance fact_pBLS_prime : Fact (Nat.Prime pBLS) := ⟨pBLS_prime⟩

/-! ## The base field `Fq` -/

/-- Square-and-multiply exponentiation in `Fq`, structurally recursive on a
fuel argument; models the exponentiation routine of the underlying field
library (`ark-ff`). -/
def fqPow : ℕ → Fq → ℕ → Fq
  | 0, _, _ => 1
  | f + 1, a, e =>
    if e = 0 then 1
    else
      let h := fqPow f a (e / 2)
      if e % 2 = 0 then h * h else h * h * a

theorem fqPow_correct : ∀ fuel (a : Fq) e, e < 2 ^ fuel → fqPow fuel a e = a ^ e := by
  intro fuel
  induction fuel with
  | zero =>
    intro a e he
    have h0 : e = 0 := by omega
    subst h0
    simp [fqPow]
  | succ f ih =>
    intro a e he
    by_cases hne : e = 0
    · subst hne; simp [fqPow]
    · rw [pow_succ] at he
      have h2 : e / 2 < 2 ^ f := by omega
      have hrec := ih a (e / 2) h2
      have hsplit : a ^ e = a ^ (e / 2) * a ^ (e / 2) * a ^ (e % 2) := by
        rw [← pow_add, ← pow_add]
        congr 1
        omega
      simp only [fqPow, if_neg hne, hrec]
      by_cases hmod : e % 2 = 0
      · rw [if_pos hmod, hsplit, hmod, pow_zero, mul_one]
      · rw [if_neg hmod, hsplit, (by omega : e % 2 = 1), pow_one]

/-- Field inversion in `Fq`, computed as `a ^ (q - 2)`; models the inversion
of the underlying field library.  Maps `0` to `0`, like the field inverse of
`ZMod`. -/
def fqInv (a : Fq) : Fq := fqPow 400 a (pBLS - 2)

theorem fqInv_eq (a : Fq) : fqInv a = a⁻¹ := by
  rw [fqInv, fqPow_correct 400 a _ (by norm_num [pBLS])]
  rcases eq_or_ne a 0 with rfl | ha
  · rw [zero_pow (by norm_num [pBLS]), inv_zero]
  · have h1 : a ^ (pBLS - 1) = 1 := ZMod.pow_card_sub_one_eq_one ha
    have h2 : a * a ^ (pBLS - 2) = 1 := by
      rw [← pow_succ']
      rw [show pBLS - 2 + 1 = pBLS - 1 by norm_num [pBLS]]
      exact h1
    field_simp
    linear_combination h2

/-! ## The G1 affine point model

The repository's G1 points are arkworks `Affine<Parameters>` values: a pair
of base-field coordinates plus an infinity flag, with the zero point kept in
a canonical representation.  We model them as an inductive type with an
explicit point at infinity.  The group operations (addition, negation,
double-and-add scalar multiplication) are the short-Weierstrass affine
chord-tangent law for `y² = x³ + 4`, modelling the arithmetic supplied by
the external `ark-ec` library. -/

inductive G1Point : Type
  | inf : G1Point
  | pt (x y : Fq) : G1Point
deriving DecidableEq

/-- Negation of an affine point (models `ark-ec` `Neg for Affine`). -/
def g1Neg : G1Point → G1Point
  | .inf => .inf
  | .pt x y => .pt x (-y)

open G1Point in
/-- Affine chord-tangent addition on `y² = x³ + 4` (models the point
addition of the external `ark-ec` library). -/
def g1Add : G1Point → G1Point → G1Point
  | inf, Q => Q
  | P, inf => P
  | pt x₁ y₁, pt x₂ y₂ =>
    if x₁ = x₂ then
      if y₁ = -y₂ then inf
      else
        let L := (3 * x₁ * x₁) * fqInv (2 * y₁)
        let x₃ := L * L - x₁ - x₂
        pt x₃ (L * (x₁ - x₃) - y₁)
    else
      let L := (y₂ - y₁) * fqInv (x₂ - x₁)
      let x₃ := L * L - x₁ - x₂
      pt x₃ (L * (x₁ - x₃) - y₁)

/-- Binary (least-significant-bit first) double-and-add, structurally
recursive on a fuel argument. -/
def g1SMulAux : ℕ → ℕ → G1Point → G1Point
  | 0, _, _ => G1Point.inf
  | f + 1, n, P =>
    if n = 0 then G1Point.inf
    else
      let r := g1SMulAux f (n / 2) (g1Add P P)
      if n % 2 = 1 then g1Add P r else r

/-- Scalar multiplication `n • P`; models `mul_bigint` / `mul_affine` of the
external `ark-ec` library (the fuel `320` covers every scalar in use, all of
which are below `2 ^ 320`). -/
def g1SMul (n : ℕ) (P : G1Point) : G1Point := g1SMulAux 320 n P

/-- The curve membership predicate `y² = x³ + 4` (`COEFF_A = 0`,
`COEFF_B = 4` from `g1.rs`); the point at infinity counts as on the curve. -/
def onCurveG1 : G1Point → Prop
  | .inf => True
  | .pt x y => y * y = x * x * x + 4

instance : DecidablePred onCurveG1 := fun P => by
  cases P <;> simp only [onCurveG1] <;> infer_instance

/-! ## Correspondence with the Mathlib Weierstrass-curve group

To reason about scalar multiplication algebraically we relate the executable
point model to Mathlib's group of nonsingular points on `y² = x³ + 4`. -/

/-- The G1 curve `y² = x³ + 4` as a Mathlib Weierstrass curve over `Fq`. -/
def WBLS : WeierstrassCurve.Affine Fq :=
  { a₁ := 0, a₂ := 0, a₃ := 0, a₄ := 0, a₆ := 4 }

theorem WBLS_delta_ne_zero : WBLS.Δ ≠ 0 := by
  decide

theorem WBLS_negY (x y : Fq) : WBLS.negY x y = -y := by
  simp [WeierstrassCurve.Affine.negY, WBLS]

theorem WBLS_equation_iff (x y : Fq) :
    WBLS.Equation x y ↔ onCurveG1 (.pt x y) := by
  rw [WeierstrassCurve.Affine.equation_iff, onCurveG1]
  show y ^ 2 + 0 * x * y + 0 * y = x ^ 3 + 0 * x ^ 2 + 0 * x + 4 ↔ y * y = x * x * x + 4
  constructor <;> intro h <;> linear_combination h

theorem WBLS_nonsingular {x y : Fq} (h : onCurveG1 (.pt x y)) : WBLS.Nonsingular x y :=
  WBLS.nonsingular_of_Δ_ne_zero ((WBLS_equation_iff x y).mpr h) WBLS_delta_ne_zero

/-- `G1Rep P Q` : the executable point `P` represents the Mathlib
nonsingular point `Q`. -/
def G1Rep : G1Point → WBLS.Point → Prop
  | .inf, Q => Q = 0
  | .pt x y, Q => ∃ h : WBLS.Nonsingular x y, Q = .some h

theorem g1Rep_exists {P : G1Point} (h : onCurveG1 P) : ∃ Q, G1Rep P Q := by
  cases P with
  | inf => exact ⟨0, rfl⟩
  | pt x y => exact ⟨.some (WBLS_nonsingular h), WBLS_nonsingular h, rfl⟩

theorem g1Rep_onCurve {P : G1Point} {Q : WBLS.Point} (h : G1Rep P Q) : onCurveG1 P := by
  cases P with
  | inf => trivial
  | pt x y =>
    obtain ⟨hn, -⟩ := h
    exact (WBLS_equation_iff x y).mp hn.1

theorem g1Rep_injective {P P' : G1Point} {Q : WBLS.Point}
    (h : G1Rep P Q) (h' : G1Rep P' Q) : P = P' := by
  cases P with
  | inf =>
    cases P' with
    | inf => rfl
    | pt x' y' =>
      obtain ⟨hn', rfl⟩ := h'
      exact absurd h (WeierstrassCurve.Affine.Point.some_ne_zero hn')
  | pt x y =>
    obtain ⟨hn, rfl⟩ := h
    cases P' with
    | inf => exact absurd h' (WeierstrassCurve.Affine.Point.some_ne_zero hn)
    | pt x' y' =>
      obtain ⟨hn', heq⟩ := h'
      cases heq
      rfl

theorem WBLS_a1 : WBLS.a₁ = 0 := rfl

theorem WBLS_a2 : WBLS.a₂ = 0 := rfl

theorem WBLS_a3 : WBLS.a₃ = 0 := rfl

theorem WBLS_a4 : WBLS.a₄ = 0 := rfl

theorem WBLS_a6 : WBLS.a₆ = 4 := rfl

theorem WBLS_addX (x₁ x₂ L : Fq) : WBLS.addX x₁ x₂ L = L * L - x₁ - x₂ := by
  rw [WeierstrassCurve.Affine.addX, WBLS_a1, WBLS_a2]
  ring

theorem WBLS_addY (x₁ x₂ y₁ L : Fq) :
    WBLS.addY x₁ x₂ y₁ L = L * (x₁ - (L * L - x₁ - x₂)) - y₁ := by
  rw [WeierstrassCurve.Affine.addY, WeierstrassCurve.Affine.negY,
    WeierstrassCurve.Affine.negAddY, WBLS_a1, WBLS_a3, WBLS_addX]
  ring

theorem g1Neg_rep {P : G1Point} {Q : WBLS.Point} (h : G1Rep P Q) :
    G1Rep (g1Neg P) (-Q) := by
  cases P with
  | inf =>
    have hQ : Q = 0 := h
    subst hQ
    simp only [neg_zero]
    rfl
  | pt x y =>
    obtain ⟨hn, rfl⟩ := h
    refine ⟨?_, ?_⟩
    · have := WeierstrassCurve.Affine.nonsingular_neg hn
      rwa [WBLS_negY] at this
    · rw [WeierstrassCurve.Affine.Point.neg_some]
      congr 1
      rw [WBLS_negY]

theorem g1Add_rep {P P' : G1Point} {Q Q' : WBLS.Point}
    (h : G1Rep P Q) (h' : G1Rep P' Q') : G1Rep (g1Add P P') (Q + Q') := by
  cases P with
  | inf =>
    have hQ : Q = 0 := h
    subst hQ
    rw [zero_add]
    cases P' with
    | inf => exact h'
    | pt x y => exact h'
  | pt x₁ y₁ =>
    obtain ⟨h₁, rfl⟩ := h
    cases P' with
    | inf =>
      have hQ : Q' = 0 := h'
      subst hQ
      rw [add_zero]
      exact ⟨h₁, rfl⟩
    | pt x₂ y₂ =>
      obtain ⟨h₂, rfl⟩ := h'
      have e₁ : y₁ * y₁ = x₁ * x₁ * x₁ + 4 := (WBLS_equation_iff x₁ y₁).mp h₁.1
      have e₂ : y₂ * y₂ = x₂ * x₂ * x₂ + 4 := (WBLS_equation_iff x₂ y₂).mp h₂.1
      by_cases hx : x₁ = x₂
      · by_cases hy : y₁ = -y₂
        · rw [show g1Add (.pt x₁ y₁) (.pt x₂ y₂) = .inf by
            simp [g1Add, hx, hy]]
          show _ = 0
          exact WeierstrassCurve.Affine.Point.add_of_Y_eq hx (by rw [WBLS_negY]; exact hy)
        · -- tangent case: x₁ = x₂, y₁ ≠ -y₂ forces y₁ = y₂ ≠ 0 on the curve
          subst hx
          have hyy : y₁ = y₂ := by
            have hz : (y₁ - y₂) * (y₁ + y₂) = 0 := by linear_combination e₁ - e₂
            rcases mul_eq_zero.mp hz with h0 | h0
            · exact sub_eq_zero.mp h0
            · exact absurd (eq_neg_of_add_eq_zero_left h0) hy
          have hy0 : y₁ ≠ 0 := by
            intro h0
            exact hy (by rw [h0, ← hyy, h0, neg_zero])
          have h2 : (2 : Fq) ≠ 0 := by decide
          have hyW : y₁ ≠ WBLS.negY x₁ y₂ := by rw [WBLS_negY]; exact hy
          have hden : y₁ - -y₁ ≠ 0 := by
            intro hc
            exact hy0 ((mul_eq_zero.mp (by linear_combination hc : (2:Fq) * y₁ = 0)).resolve_left h2)
          have hL : 3 * x₁ * x₁ * fqInv (2 * y₁) = WBLS.slope x₁ x₁ y₁ y₂ := by
            rw [WeierstrassCurve.Affine.slope_of_Y_ne rfl hyW, fqInv_eq, WBLS_negY,
              WBLS_a1, WBLS_a2, WBLS_a4]
            rw [div_eq_mul_inv]
            congr 1
            · ring
            · congr 1
              ring
          rw [show g1Add (.pt x₁ y₁) (.pt x₁ y₂) =
              G1Point.pt (WBLS.addX x₁ x₁ (WBLS.slope x₁ x₁ y₁ y₂))
                (WBLS.addY x₁ x₁ y₁ (WBLS.slope x₁ x₁ y₁ y₂)) by
            simp only [g1Add, eq_self_iff_true, ite_true, if_neg hy, hL, WBLS_addX, WBLS_addY]]
          rw [WeierstrassCurve.Affine.Point.add_of_Y_ne hyW]
          exact ⟨_, rfl⟩
      · -- chord case: x₁ ≠ x₂
        have hxd : x₂ - x₁ ≠ 0 := sub_ne_zero.mpr (Ne.symm hx)
        have hL : (y₂ - y₁) * fqInv (x₂ - x₁) = WBLS.slope x₁ x₂ y₁ y₂ := by
          rw [WeierstrassCurve.Affine.slope_of_X_ne hx, fqInv_eq]
          rw [div_eq_mul_inv, show y₁ - y₂ = -(y₂ - y₁) by ring,
            show x₁ - x₂ = -(x₂ - x₁) by ring, neg_mul_comm, inv_neg, neg_neg]
        rw [show g1Add (.pt x₁ y₁) (.pt x₂ y₂) =
            G1Point.pt (WBLS.addX x₁ x₂ (WBLS.slope x₁ x₂ y₁ y₂))
              (WBLS.addY x₁ x₂ y₁ (WBLS.slope x₁ x₂ y₁ y₂)) by
          simp only [g1Add, if_neg hx, hL, WBLS_addX, WBLS_addY]]
        rw [WeierstrassCurve.Affine.Point.add_of_X_ne hx]
        exact ⟨_, rfl⟩

theorem g1SMulAux_rep :
    ∀ fuel n (P : G1Point) (Q : WBLS.Point), n < 2 ^ fuel → G1Rep P Q →
      G1Rep (g1SMulAux fuel n P) (n • Q) := by
  intro fuel
  induction fuel with
  | zero =>
    intro n P Q hn h
    have h0 : n = 0 := by omega
    subst h0
    rw [zero_nsmul]
    rfl
  | succ f ih =>
    intro n P Q hn h
    by_cases h0 : n = 0
    · subst h0
      rw [zero_nsmul, show g1SMulAux (f + 1) 0 P = .inf by simp [g1SMulAux]]
      rfl
    · rw [pow_succ] at hn
      have hn2 : n / 2 < 2 ^ f := by omega
      have hr := ih (n / 2) (g1Add P P) (Q + Q) hn2 (g1Add_rep h h)
      have hQQ : (n / 2) • (Q + Q) = (2 * (n / 2)) • Q := by
        rw [nsmul_add, two_mul, add_nsmul]
      by_cases hpar : n % 2 = 1
      · rw [show g1SMulAux (f + 1) n P = g1Add P (g1SMulAux f (n / 2) (g1Add P P)) by
          simp [g1SMulAux, h0, hpar]]
        have hrep := g1Add_rep h hr
        rw [hQQ] at hrep
        have hsm : n • Q = Q + (2 * (n / 2)) • Q := by
          conv_lhs => rw [show n = 2 * (n / 2) + 1 by omega]
          rw [add_nsmul, one_nsmul, add_comm]
        rw [hsm]
        exact hrep
      · rw [show g1SMulAux (f + 1) n P = g1SMulAux f (n / 2) (g1Add P P) by
          simp [g1SMulAux, h0, hpar]]
        have hsm : n • Q = (n / 2) • (Q + Q) := by
          conv_lhs => rw [show n = 2 * (n / 2) by omega]
          rw [← hQQ]
        rw [hsm]
        exact hr

theorem g1SMul_rep {n : ℕ} (hn : n < 2 ^ 320) {P : G1Point} {Q : WBLS.Point}
    (h : G1Rep P Q) : G1Rep (g1SMul n P) (n • Q) :=
  g1SMulAux_rep 320 n P Q hn h

theorem onCurve_g1SMul {n : ℕ} (hn : n < 2 ^ 320) {P : G1Point} (h : onCurveG1 P) :
    onCurveG1 (g1SMul n P) := by
  obtain ⟨Q, hQ⟩ := g1Rep_exists h
  exact g1Rep_onCurve (g1SMul_rep hn hQ)

theorem onCurve_g1Add {P P' : G1Point} (h : onCurveG1 P) (h' : onCurveG1 P') :
    onCurveG1 (g1Add P P') := by
  obtain ⟨Q, hQ⟩ := g1Rep_exists h
  obtain ⟨Q', hQ'⟩ := g1Rep_exists h'
  exact g1Rep_onCurve (g1Add_rep hQ hQ')

/-- Composing scalar multiplications multiplies the scalars: the hard
algebraic content comes from the Mathlib group structure on the curve. -/
theorem g1SMul_g1SMul {a b : ℕ} (ha : a < 2 ^ 320) (hb : b < 2 ^ 320)
    (hab : a * b < 2 ^ 320) {P : G1Point} (h : onCurveG1 P) :
    g1SMul a (g1SMul b P) = g1SMul (a * b) P := by
  obtain ⟨Q, hQ⟩ := g1Rep_exists h
  have h2 := g1SMul_rep ha (g1SMul_rep hb hQ)
  have h3 := g1SMul_rep hab hQ
  rw [show a * b = b * a from mul_comm a b, mul_nsmul, show b * a = a * b from mul_comm b a] at h3
  exact g1Rep_injective h2 h3

/-! ## Source-level G1 operations (`curves/bls12_381/src/curves/g1.rs`) -/

namespace Parameters

/-- `Bls12Parameters::X` for BLS12-381: the single limb `0xd201000000010000`
(`curves/mod.rs` line 21), read as a natural number. -/
def X : ℕ := 0xd201000000010000

/-- `Bls12Parameters::X_IS_NEGATIVE` (`curves/mod.rs` line 22). -/
def X_IS_NEGATIVE : Bool := true

/-- `CurveConfig::COFACTOR = (x - 1)^2 / 3` for G1, from the limbs
`[0x8c00aaab0000aaab, 0x396c8c005555e156]` (g1.rs line 27). -/
def COFACTOR : ℕ := 0x396c8c005555e156 * 2 ^ 64 + 0x8c00aaab0000aaab

/-- `CurveConfig::COFACTOR_INV` (g1.rs lines 31-32). -/
def COFACTOR_INV : ZMod rBLS :=
  52435875175126190458656871551744051925719901746859129887267498875565241663483

end Parameters

/-- `BETA` is a non-trivial cubic root of unity in `Fq` (g1.rs line 187). -/
def BETA : Fq := 793479390729215512621379701633421447060886740281060493010456487427281649075476305620758731620350

/-- `G1_GENERATOR_X` (g1.rs line 180). -/
def G1_GENERATOR_X : Fq := 3685416753713387016781088315183077757961620795782546409894578378688607592378376318836054947676345821548104185464507

/-- `G1_GENERATOR_Y` (g1.rs line 184). -/
def G1_GENERATOR_Y : Fq := 1339506544944476473020471379941921221584933875938349620426543736416511423956333506472724655353366534992391756441569

/-- `SWCurveConfig::GENERATOR` (g1.rs line 43). -/
def GENERATOR : G1Point := .pt G1_GENERATOR_X G1_GENERATOR_Y

/-- `endomorphism(p) = (BETA * x, y)` (g1.rs lines 189-196).  The canonical
zero representation is preserved, matching `res.x *= BETA` on the zero
point, whose `x` coordinate is `0`. -/
def endomorphism : G1Point → G1Point
  | .inf => .inf
  | .pt x y => .pt (BETA * x) y

/-- `is_in_correct_subgroup_assuming_on_curve` (g1.rs lines 51-67):
the endomorphism-based fast subgroup check from eprint 2021/1130 §6.
`x_times_p = p.mul_bigint(X)`; early-out if `x_times_p == p && !p.infinity`;
otherwise compare `x_times_p.mul_bigint(X).neg()` with `endomorphism(p)`. -/
def is_in_correct_subgroup_assuming_on_curve (p : G1Point) : Bool :=
  let x_times_p := g1SMul Parameters.X p
  if x_times_p = p ∧ ¬p = .inf then false
  else decide (g1Neg (g1SMul Parameters.X x_times_p) = endomorphism p)

/-- `one_minus_x()` (g1.rs lines 173-176):
`Fr::one() - Fr::from_sign_and_limbs(!X_IS_NEGATIVE, X)`, an element of the
scalar field `Fr = ZMod rBLS`. -/
def one_minus_x : ZMod rBLS :=
  1 - (if Parameters.X_IS_NEGATIVE then -(Parameters.X : ZMod rBLS) else (Parameters.X : ZMod rBLS))

/-- `clear_cofactor` (g1.rs lines 69-77): multiply by the effective cofactor
`h_eff = one_minus_x().into_bigint()`. -/
def clear_cofactor (p : G1Point) : G1Point := g1SMul (one_minus_x).val p

/-- Sanity: the generator is on the curve. -/
theorem generator_onCurve : onCurveG1 GENERATOR := by decide

/-- Sanity: `BETA` is a primitive cube root of unity. -/
theorem beta_cube : BETA * BETA * BETA = 1 ∧ BETA ≠ 1 := by constructor <;> decide

/-- **C1**: for every on-curve point `P`, the subgroup check first computes
`X·P`, returns `false` if `X·P = P` and `P` is not the point at infinity,
and otherwise returns `true` iff `−X²·P` equals the endomorphism
`ψ(P) = (β·x, y)`. -/
theorem C1_subgroup_check_spec (P : G1Point) (h : onCurveG1 P) :
    is_in_correct_subgroup_assuming_on_curve P =
      if g1SMul Parameters.X P = P ∧ ¬P = .inf then false
      else decide (g1Neg (g1SMul (Parameters.X * Parameters.X) P) = endomorphism P) := by
  simp only [is_in_correct_subgroup_assuming_on_curve]
  rw [g1SMul_g1SMul (by norm_num [Parameters.X]) (by norm_num [Parameters.X])
    (by norm_num [Parameters.X]) h]

theorem C1_subgroup_check_spec_witness :
    onCurveG1 GENERATOR ∧
      (is_in_correct_subgroup_assuming_on_curve GENERATOR =
        if g1SMul Parameters.X GENERATOR = GENERATOR ∧ ¬GENERATOR = .inf then false
        else decide (g1Neg (g1SMul (Parameters.X * Parameters.X) GENERATOR) =
          endomorphism GENERATOR)) :=
  ⟨generator_onCurve, C1_subgroup_check_spec GENERATOR generator_onCurve⟩

/-- **C10**: the subgroup check accepts the point at infinity: the
early-out does not trigger (its `P ≠ ∞` conjunct fails), the
endomorphism fixes the point at infinity, and `−X²·∞` equals `ψ(∞)`. -/
theorem C10_subgroup_check_infinity :
    is_in_correct_subgroup_assuming_on_curve G1Point.inf = true ∧
      endomorphism G1Point.inf = G1Point.inf ∧
      ¬(g1SMul Parameters.X G1Point.inf = G1Point.inf ∧ ¬G1Point.inf = G1Point.inf) ∧
      g1Neg (g1SMul (Parameters.X * Parameters.X) G1Point.inf) = endomorphism G1Point.inf := by
  refine ⟨by decide, rfl, by decide, by decide⟩

/-! ## Byte-level encoding helpers

Byte buffers are `List ℕ` with entries below `256`.  `serialize_fq` writes
the canonical value of an `Fq` element as 48 big-endian bytes (spec §4.1,
§6; the helper `util.rs` is not among the sources, so the byte layout is
modelled from the spec, matching the published BLS12-381 encoding). -/

/-- Big-endian encoding of `v` into `n` bytes (the `n` most significant
first); truncates `v` modulo `256 ^ n`. -/
def natToBytesBE : ℕ → ℕ → List ℕ
  | 0, _ => []
  | n + 1, v => (v / 256 ^ n) % 256 :: natToBytesBE n (v % 256 ^ n)

/-- Big-endian decoding of a byte list to a natural number. -/
def bytesToNatBE : List ℕ → ℕ
  | [] => 0
  | b :: bs => b * 256 ^ bs.length + bytesToNatBE bs

theorem natToBytesBE_length (n : ℕ) : ∀ v, (natToBytesBE n v).length = n := by
  induction n with
  | zero => intro v; rfl
  | succ m ih => intro v; simp [natToBytesBE, ih]

theorem bytesToNatBE_natToBytesBE (n : ℕ) :
    ∀ v, v < 256 ^ n → bytesToNatBE (natToBytesBE n v) = v := by
  induction n with
  | zero =>
    intro v hv
    have : v = 0 := by simpa using hv
    subst this
    rfl
  | succ m ih =>
    intro v hv
    have hlt : v % 256 ^ m < 256 ^ m := Nat.mod_lt _ (by positivity)
    simp only [natToBytesBE, bytesToNatBE, natToBytesBE_length, ih (v % 256 ^ m) hlt]
    have hdiv : v / 256 ^ m < 256 := by
      rw [Nat.div_lt_iff_lt_mul (by positivity : 0 < 256 ^ m)]
      calc v < 256 ^ (m + 1) := hv
      _ = 256 * 256 ^ m := by rw [pow_succ]; ring
      _ ≤ 256 * 256 ^ m := le_refl _
    rw [Nat.mod_eq_of_lt hdiv]
    calc v / 256 ^ m * 256 ^ m + v % 256 ^ m
        = 256 ^ m * (v / 256 ^ m) + v % 256 ^ m := by ring_nf
      _ = v := Nat.div_add_mod v (256 ^ m)

/-- `serialize_fq`: canonical 48-byte big-endian encoding of a base-field
element (modelled from the spec; `util.rs` is not among the sources). -/
def serialize_fq (x : Fq) : List ℕ := natToBytesBE 48 x.val

theorem serialize_fq_length (x : Fq) : (serialize_fq x).length = 48 :=
  natToBytesBE_length 48 x.val

/-- The leading byte of a serialized field element is below 32: the three
most significant bits of the encoding are free for flags. -/
theorem serialize_fq_head_lt (x : Fq) :
    x.val / 256 ^ 47 % 256 < 32 := by
  have hv : x.val < pBLS := ZMod.val_lt x
  have : x.val / 256 ^ 47 < 32 := by
    rw [Nat.div_lt_iff_lt_mul (by positivity : 0 < (256: ℕ) ^ 47)]
    calc x.val < pBLS := hv
      _ < 32 * 256 ^ 47 := by norm_num [pBLS]
  omega

/-- `EncodingFlags` (spec §3 / util.rs): the three flag bits packed into the
most significant bits of the leading byte.  The field name
`is_lexographically_largest` follows the source spelling (g1.rs line 105). -/
structure EncodingFlags where
  is_compressed : Bool
  is_infinity : Bool
  is_lexographically_largest : Bool
deriving DecidableEq

/-- `EncodingFlags::encode_flags`: set the flag bits in the leading byte
(bit 7 = compression, bit 6 = infinity, bit 5 = sign, the sign bit only in
compressed form; modelled from the spec §6). -/
def encode_flags (f : EncodingFlags) : List ℕ → List ℕ
  | [] => []
  | b :: rest =>
    (b + (if f.is_compressed then 128 else 0) + (if f.is_infinity then 64 else 0) +
      (if f.is_compressed && f.is_lexographically_largest then 32 else 0)) :: rest

/-- Read the flag bits of the leading byte (modelled from the spec §6). -/
def get_flags : List ℕ → EncodingFlags
  | [] => ⟨false, false, false⟩
  | b :: _ => ⟨decide (b / 128 % 2 = 1), decide (b / 64 % 2 = 1), decide (b / 32 % 2 = 1)⟩

/-- Clear the flag bits of the leading byte (modelled from the spec §6). -/
def remove_flags : List ℕ → List ℕ
  | [] => []
  | b :: rest => b % 32 :: rest

theorem encode_flags_length (f : EncodingFlags) (bs : List ℕ) :
    (encode_flags f bs).length = bs.length := by
  cases bs <;> rfl

theorem flags_roundtrip (f : EncodingFlags) (b : ℕ) (rest : List ℕ) (hb : b < 32) :
    get_flags (encode_flags f (b :: rest)) =
      ⟨f.is_compressed, f.is_infinity, f.is_compressed && f.is_lexographically_largest⟩ ∧
    remove_flags (encode_flags f (b :: rest)) = b :: rest := by
  obtain ⟨c, i, l⟩ := f
  cases c <;> cases i <;> cases l <;>
    simp [encode_flags, get_flags, remove_flags, EncodingFlags.mk.injEq, List.cons.injEq,
      decide_eq_true_eq] <;> omega

/-! ## Point (de)serialization -/

/-- `Compress` mode (`ark_serialize::Compress`). -/
inductive Compress | yes | no
deriving DecidableEq

/-- `Validate` mode (`ark_serialize::Validate`). -/
inductive Validate | yes | no
deriving DecidableEq

/-- Typed codec failures (spec §7).  The source maps the subgroup-check
failure to `SerializationError::InvalidData`. -/
inductive SerError | malformedEncoding | notOnCurve | notInSubgroup
deriving DecidableEq

/-- `G1_SERIALIZED_SIZE` (util.rs / spec §6): 48 bytes. -/
def G1_SERIALIZED_SIZE : ℕ := 48

/-- The `x` coordinate, with the arkworks canonical zero `(0, 1)` for the
point at infinity. -/
def getX : G1Point → Fq
  | .inf => 0
  | .pt x _ => x

/-- The `y` coordinate, with the arkworks canonical zero `(0, 1)` for the
point at infinity. -/
def getY : G1Point → Fq
  | .inf => 1
  | .pt _ y => y

/-- `compress == Compress::Yes` as a boolean. -/
def isCompressB : Compress → Bool
  | .yes => true
  | .no => false

/-- `item.is_zero()` as a boolean. -/
def isInfB : G1Point → Bool
  | .inf => true
  | .pt _ _ => false

/-- `serialize_with_mode` (g1.rs lines 97-129): compute the flags from the
item (`is_lexographically_largest: item.y > -item.y`), normalize infinity
to the canonical zero, write `x` (and `y` when uncompressed) and pack the
flags into the leading byte. -/
def serialize_with_mode (item : G1Point) (compress : Compress) : List ℕ :=
  let encoding : EncodingFlags :=
    { is_compressed := isCompressB compress
      is_infinity := isInfB item
      is_lexographically_largest := decide ((-(getY item)).val < (getY item).val) }
  let q := if encoding.is_infinity then G1Point.pt 0 1 else item
  let x_bytes := serialize_fq (getX q)
  if encoding.is_compressed then
    encode_flags encoding x_bytes
  else
    encode_flags encoding (x_bytes ++ serialize_fq (getY q))

/-- Square root in `Fq` by exponentiation with `(q+1)/4` (valid as
`q ≡ 3 mod 4`), with a final squaring check; `none` when no square root
exists.  Models the field library's `sqrt` used during decompression. -/
def sqrtFq (a : Fq) : Option Fq :=
  let c := fqPow 400 a ((pBLS + 1) / 4)
  if c * c = a then some c else none

/-- The larger of `s` and `-s` in the canonical total order on `Fq`. -/
def lexLargest (s : Fq) : Fq := if (-s).val < s.val then s else -s

/-- The smaller of `s` and `-s` in the canonical total order on `Fq`. -/
def lexSmallest (s : Fq) : Fq := if (-s).val < s.val then -s else s

/-- Modelled from the spec: `read_g1_compressed` (`util.rs` is not among
the sources).  Per spec §4.1: a wrong-length buffer or an inconsistent
compression bit is `MalformedEncoding`; if the infinity flag is set the
point at infinity is returned regardless of the coordinate bytes;
otherwise `y = sqrt(x³ + 4)` is recovered — `NotOnCurve` when no square
root exists — selecting the root designated by the sign flag. -/
def read_g1_compressed (bs : List ℕ) : Except SerError G1Point :=
  if bs.length ≠ G1_SERIALIZED_SIZE then .error .malformedEncoding
  else
    let flags := get_flags bs
    if flags.is_compressed = false then .error .malformedEncoding
    else if flags.is_infinity then .ok .inf
    else
      let x : Fq := (bytesToNatBE (remove_flags bs) : ℕ)
      match sqrtFq (x * x * x + 4) with
      | none => .error .notOnCurve
      | some s =>
          .ok (.pt x (if flags.is_lexographically_largest then lexLargest s else lexSmallest s))

/-- Modelled from the spec: `read_g1_uncompressed` (`util.rs` is not among
the sources).  Reads `x` then `y` at base-field width; a wrong length or a
set compression bit is `MalformedEncoding`; the infinity flag returns the
point at infinity regardless of the coordinate bytes. -/
def read_g1_uncompressed (bs : List ℕ) : Except SerError G1Point :=
  if bs.length ≠ 2 * G1_SERIALIZED_SIZE then .error .malformedEncoding
  else
    let flags := get_flags bs
    if flags.is_compressed = true then .error .malformedEncoding
    else if flags.is_infinity then .ok .inf
    else
      let x : Fq := (bytesToNatBE (remove_flags (bs.take 48)) : ℕ)
      let y : Fq := (bytesToNatBE (bs.drop 48) : ℕ)
      .ok (.pt x y)

/-- `deserialize_with_mode` (g1.rs lines 79-95): read a point (compressed
or uncompressed), then check subgroup membership only when validation is
requested. -/
def deserialize_with_mode (bs : List ℕ) (compress : Compress) (validate : Validate) :
    Except SerError G1Point :=
  match (if compress = .yes then read_g1_compressed bs else read_g1_uncompressed bs) with
  | .error e => .error e
  | .ok p =>
      if validate = .yes ∧ is_in_correct_subgroup_assuming_on_curve p = false then
        .error .notInSubgroup
      else .ok p

/-- `serialized_size` (g1.rs lines 131-137). -/
def serialized_size (compress : Compress) : ℕ :=
  if compress = .yes then G1_SERIALIZED_SIZE else 2 * G1_SERIALIZED_SIZE

/-! ## Round-trip correctness of the codec -/

theorem sqrtFq_square (y : Fq) :
    sqrtFq (y * y) = some y ∨ sqrtFq (y * y) = some (-y) := by
  have hc : fqPow 400 (y * y) ((pBLS + 1) / 4) = (y * y) ^ ((pBLS + 1) / 4) :=
    fqPow_correct 400 (y * y) _ (by norm_num [pBLS])
  rcases eq_or_ne y 0 with rfl | hy
  · left
    have hc0 : fqPow 400 ((0 : Fq) * 0) ((pBLS + 1) / 4) = 0 := by
      rw [show ((0 : Fq) * 0) = 0 by ring, fqPow_correct 400 0 _ (by norm_num [pBLS]),
        zero_pow (by norm_num [pBLS] : (pBLS + 1) / 4 ≠ 0)]
    simp only [sqrtFq, hc0]
    norm_num
  · have h1 : (y * y) ^ ((pBLS + 1) / 4) * (y * y) ^ ((pBLS + 1) / 4) = y * y := by
      rw [← pow_add, show (pBLS + 1) / 4 + (pBLS + 1) / 4 = (pBLS + 1) / 2 by norm_num [pBLS],
        show y * y = y ^ 2 by ring, ← pow_mul,
        show 2 * ((pBLS + 1) / 2) = pBLS + 1 by norm_num [pBLS],
        show pBLS + 1 = pBLS - 1 + 2 by norm_num [pBLS], pow_add,
        ZMod.pow_card_sub_one_eq_one hy, one_mul]
    have hsq : fqPow 400 (y * y) ((pBLS + 1) / 4) * fqPow 400 (y * y) ((pBLS + 1) / 4) =
        y * y := by rw [hc]; exact h1
    have h2 : (fqPow 400 (y * y) ((pBLS + 1) / 4) - y) *
        (fqPow 400 (y * y) ((pBLS + 1) / 4) + y) = 0 := by linear_combination hsq
    rcases mul_eq_zero.mp h2 with h3 | h3
    · left
      simp only [sqrtFq]
      rw [if_pos hsq]
      exact congrArg some (by linear_combination h3)
    · right
      simp only [sqrtFq]
      rw [if_pos hsq]
      exact congrArg some (by linear_combination h3)

theorem fq_val_inj {a b : Fq} (h : a.val = b.val) : a = b := by
  have h2 := congrArg (fun n : ℕ => (n : Fq)) h
  simpa only [ZMod.natCast_val, ZMod.cast_id] using h2

theorem root_select (y s : Fq) (hs : s = y ∨ s = -y) :
    (if decide ((-y).val < y.val) = true then lexLargest s else lexSmallest s) = y := by
  by_cases h : (-y).val < y.val
  · rw [if_pos (by simpa using h)]
    rcases hs with rfl | rfl
    · rw [lexLargest, if_pos h]
    · rw [lexLargest, neg_neg, if_neg (by omega : ¬y.val < (-y).val)]
  · rw [if_neg (by simpa using h)]
    rcases hs with rfl | rfl
    · rw [lexSmallest, if_neg h]
    · rw [lexSmallest, neg_neg]
      by_cases h2 : y.val < (-y).val
      · rw [if_pos h2]
      · rw [if_neg h2]
        exact fq_val_inj (by omega : (-y).val = y.val)

theorem pBLS_lt_bytes : pBLS < 256 ^ 48 := by norm_num [pBLS]

theorem fq_natCast_val (x : Fq) : ((x.val : ℕ) : Fq) = x := by
  simp [ZMod.natCast_val, ZMod.cast_id]

theorem read_serialize_compressed (x y : Fq) (h : onCurveG1 (.pt x y)) :
    read_g1_compressed (serialize_with_mode (.pt x y) .yes) = .ok (.pt x y) := by
  have hser : serialize_with_mode (.pt x y) .yes =
      encode_flags ⟨true, false, decide ((-y).val < y.val)⟩ (natToBytesBE 48 x.val) := rfl
  have hxb : natToBytesBE 48 x.val =
      x.val / 256 ^ 47 % 256 :: natToBytesBE 47 (x.val % 256 ^ 47) := rfl
  have hhead : x.val / 256 ^ 47 % 256 < 32 := serialize_fq_head_lt x
  obtain ⟨hflags, hremove⟩ := flags_roundtrip ⟨true, false, decide ((-y).val < y.val)⟩ _
    (natToBytesBE 47 (x.val % 256 ^ 47)) hhead
  have hlen : ¬(encode_flags ⟨true, false, decide ((-y).val < y.val)⟩
      (x.val / 256 ^ 47 % 256 :: natToBytesBE 47 (x.val % 256 ^ 47))).length ≠
      G1_SERIALIZED_SIZE := by
    simp [encode_flags_length, natToBytesBE_length, G1_SERIALIZED_SIZE]
  have hrecover : ((bytesToNatBE (remove_flags (encode_flags ⟨true, false,
      decide ((-y).val < y.val)⟩ (x.val / 256 ^ 47 % 256 ::
        natToBytesBE 47 (x.val % 256 ^ 47)))) : ℕ) : Fq) = x := by
    rw [hremove, ← hxb,
      bytesToNatBE_natToBytesBE 48 x.val (lt_trans (ZMod.val_lt x) pBLS_lt_bytes),
      fq_natCast_val]
  have hcurve : x * x * x + 4 = y * y := h.symm
  rw [hser, hxb, read_g1_compressed, if_neg hlen, hflags]
  dsimp only []
  rw [if_neg (by decide : ¬(true = false)), if_neg (by decide : ¬(false = true)),
    Bool.true_and, hrecover, hcurve]
  rcases sqrtFq_square y with hs | hs <;> rw [hs]
  · show Except.ok (G1Point.pt x
        (if decide ((-y).val < y.val) = true then lexLargest y else lexSmallest y)) =
      Except.ok (G1Point.pt x y)
    rw [root_select y y (Or.inl rfl)]
  · show Except.ok (G1Point.pt x
        (if decide ((-y).val < y.val) = true then lexLargest (-y) else lexSmallest (-y))) =
      Except.ok (G1Point.pt x y)
    rw [root_select y (-y) (Or.inr rfl)]

theorem encode_flags_uncompressed (l : Bool) (b : ℕ) (rest : List ℕ) :
    encode_flags ⟨false, false, l⟩ (b :: rest) = b :: rest := by
  simp [encode_flags]

theorem get_flags_small (b : ℕ) (rest : List ℕ) (hb : b < 32) :
    get_flags (b :: rest) = ⟨false, false, false⟩ := by
  simp only [get_flags, EncodingFlags.mk.injEq]
  refine ⟨?_, ?_, ?_⟩ <;> simp only [decide_eq_false_iff_not] <;> omega

theorem read_serialize_uncompressed (x y : Fq) :
    read_g1_uncompressed (serialize_with_mode (.pt x y) .no) = .ok (.pt x y) := by
  have hxb : natToBytesBE 48 x.val =
      x.val / 256 ^ 47 % 256 :: natToBytesBE 47 (x.val % 256 ^ 47) := rfl
  have hhead : x.val / 256 ^ 47 % 256 < 32 := serialize_fq_head_lt x
  have hser : serialize_with_mode (.pt x y) .no =
      (x.val / 256 ^ 47 % 256 :: natToBytesBE 47 (x.val % 256 ^ 47)) ++
        natToBytesBE 48 y.val := by
    rw [show serialize_with_mode (.pt x y) .no =
      encode_flags ⟨false, false, decide ((-y).val < y.val)⟩
        (natToBytesBE 48 x.val ++ natToBytesBE 48 y.val) from rfl, hxb, List.cons_append,
      encode_flags_uncompressed, ← List.cons_append]
  have hxblen : (x.val / 256 ^ 47 % 256 :: natToBytesBE 47 (x.val % 256 ^ 47)).length = 48 := by
    simp [natToBytesBE_length]
  have hlen : ¬((x.val / 256 ^ 47 % 256 :: natToBytesBE 47 (x.val % 256 ^ 47)) ++
      natToBytesBE 48 y.val).length ≠ 2 * G1_SERIALIZED_SIZE := by
    simp [natToBytesBE_length, G1_SERIALIZED_SIZE]
  have hflags : get_flags ((x.val / 256 ^ 47 % 256 :: natToBytesBE 47 (x.val % 256 ^ 47)) ++
      natToBytesBE 48 y.val) = ⟨false, false, false⟩ := by
    rw [List.cons_append, get_flags_small _ _ hhead]
  have htake : ((x.val / 256 ^ 47 % 256 :: natToBytesBE 47 (x.val % 256 ^ 47)) ++
      natToBytesBE 48 y.val).take 48 =
      x.val / 256 ^ 47 % 256 :: natToBytesBE 47 (x.val % 256 ^ 47) :=
    List.take_left' hxblen
  have hdrop : ((x.val / 256 ^ 47 % 256 :: natToBytesBE 47 (x.val % 256 ^ 47)) ++
      natToBytesBE 48 y.val).drop 48 = natToBytesBE 48 y.val :=
    List.drop_left' hxblen
  have hrm : remove_flags (x.val / 256 ^ 47 % 256 :: natToBytesBE 47 (x.val % 256 ^ 47)) =
      x.val / 256 ^ 47 % 256 :: natToBytesBE 47 (x.val % 256 ^ 47) := by
    simp only [remove_flags, Nat.mod_eq_of_lt hhead]
  rw [hser, read_g1_uncompressed, if_neg hlen, hflags]
  dsimp only []
  rw [if_neg (by decide : ¬(false = true)), if_neg (by decide : ¬(false = true)),
    htake, hdrop, hrm, ← hxb,
    bytesToNatBE_natToBytesBE 48 x.val (lt_trans (ZMod.val_lt x) pBLS_lt_bytes),
    bytesToNatBE_natToBytesBE 48 y.val (lt_trans (ZMod.val_lt y) pBLS_lt_bytes),
    fq_natCast_val, fq_natCast_val]

theorem read_serialize_inf_compressed :
    read_g1_compressed (serialize_with_mode .inf .yes) = .ok .inf := rfl

theorem read_serialize_inf_uncompressed :
    read_g1_uncompressed (serialize_with_mode .inf .no) = .ok .inf := rfl

/-- Round trip of the full (de)serialization pipeline without validation. -/
theorem deserialize_serialize_eq (P : G1Point) (c : Compress) (h : onCurveG1 P) :
    deserialize_with_mode (serialize_with_mode P c) c .no = .ok P := by
  have hread : (if c = .yes then read_g1_compressed (serialize_with_mode P c)
      else read_g1_uncompressed (serialize_with_mode P c)) = .ok P := by
    cases c with
    | yes =>
      rw [if_pos rfl]
      cases P with
      | inf => exact read_serialize_inf_compressed
      | pt x y => exact read_serialize_compressed x y h
    | no =>
      rw [if_neg (by simp : ¬Compress.no = Compress.yes)]
      cases P with
      | inf => exact read_serialize_inf_uncompressed
      | pt x y => exact read_serialize_uncompressed x y
  rw [deserialize_with_mode, hread]
  show (if Validate.no = Validate.yes ∧ is_in_correct_subgroup_assuming_on_curve P = false
    then Except.error SerError.notInSubgroup else Except.ok P) = Except.ok P
  rw [if_neg (fun hc => by simpa using hc.1)]

/-- **C4**: for every on-curve point `P` and either compression mode,
deserializing the serialization of `P` (with the same mode, without
validation) returns exactly `P`. -/
theorem C4_serialization_roundtrip (P : G1Point) (c : Compress) (h : onCurveG1 P) :
    deserialize_with_mode (serialize_with_mode P c) c .no = .ok P :=
  deserialize_serialize_eq P c h

theorem C4_serialization_roundtrip_witness :
    onCurveG1 GENERATOR ∧
      deserialize_with_mode (serialize_with_mode GENERATOR .yes) .yes .no = .ok GENERATOR :=
  ⟨generator_onCurve, C4_serialization_roundtrip GENERATOR .yes generator_onCurve⟩

/-! ## Error handling (claims C7, C8) and the prepared-operand round trip (C9) -/

/-- A panic (Rust `unwrap` failure or `assert_eq!` failure). -/
inductive PanicE | panic
deriving DecidableEq

/-- Modelled after `multi_miller_loop` of `primitives/arkworks/src/lib.rs`
(lines 68-99): each G1 buffer is decoded with `Validate::No` and
**unwrapped** — a decoding failure panics rather than returning a typed
error — likewise each G2 buffer; then the Miller loop runs on the decoded
points.  The G2 codec and the Miller-loop arithmetic are external to the
sources (`ark_bls12_381`), so they are parameters of the model. -/
def multi_miller_loop_host {G2R : Type}
    (deserializeG2 : List ℕ → Except SerError G2R)
    (miller : List G1Point → List G2R → List ℕ)
    (a_vec b_vec : List (List ℕ)) : Except PanicE (List ℕ) := do
  let g1 ← a_vec.mapM (fun a => match deserialize_with_mode a .yes .no with
    | .ok p => Except.ok p
    | .error _ => Except.error PanicE.panic)
  let g2 ← b_vec.mapM (fun b => match deserializeG2 b with
    | .ok q => Except.ok q
    | .error _ => Except.error PanicE.panic)
  .ok (miller g1 g2)

/-- **C7 counterexample**: the host-side `multi_miller_loop` panics on a
malformed (empty) G1 operand buffer instead of returning a typed failure,
refuting the blanket statement that all codec failures are returned as
explicit typed failures and decoding never panics. -/
theorem C7_counterexample :
    multi_miller_loop_host (fun _ => Except.ok ()) (fun _ _ => ([] : List ℕ))
      [[]] [] = .error .panic := rfl

/-- **C7 (amended)**: `deserialize_with_mode` itself fails with the typed
error `MalformedEncoding` on every wrong-length buffer — it neither panics
nor returns a default point — while the host-side `multi_miller_loop`
panics (unwraps) on a malformed operand buffer rather than returning a
typed failure. -/
theorem C7_wrong_length_typed_error (bs : List ℕ) (c : Compress) (v : Validate)
    (h : bs.length ≠ serialized_size c) :
    deserialize_with_mode bs c v = .error .malformedEncoding ∧
      multi_miller_loop_host (fun _ => Except.ok ()) (fun _ _ => ([] : List ℕ))
        [[]] [] = .error .panic := by
  refine ⟨?_, rfl⟩
  cases c with
  | yes =>
    have h48 : bs.length ≠ G1_SERIALIZED_SIZE := by
      simpa [serialized_size, G1_SERIALIZED_SIZE] using h
    rw [deserialize_with_mode, if_pos rfl, read_g1_compressed, if_pos h48]
  | no =>
    have h96 : bs.length ≠ 2 * G1_SERIALIZED_SIZE := by
      simpa [serialized_size, G1_SERIALIZED_SIZE] using h
    rw [deserialize_with_mode, if_neg (by simp : ¬Compress.no = Compress.yes),
      read_g1_uncompressed, if_pos h96]

theorem C7_wrong_length_typed_error_witness :
    (List.replicate 47 0).length ≠ serialized_size .yes ∧
      (deserialize_with_mode (List.replicate 47 0) .yes .yes = .error .malformedEncoding ∧
        multi_miller_loop_host (fun _ => Except.ok ()) (fun _ _ => ([] : List ℕ))
          [[]] [] = .error .panic) :=
  ⟨by decide, C7_wrong_length_typed_error (List.replicate 47 0) .yes .yes (by decide)⟩

theorem subgroup_check_inf :
    is_in_correct_subgroup_assuming_on_curve G1Point.inf = true := by
  decide

/-- **C8 (amended)**: whenever the infinity flag is set in a buffer of the
expected length (with the compression flag consistent with the decode
mode), `deserialize_with_mode` returns the point at infinity — in either
mode, for either validation setting — regardless of the coordinate
payload bytes. -/
theorem C8_infinity_flag_decodes_to_infinity (bs : List ℕ) (c : Compress) (v : Validate)
    (hlen : bs.length = serialized_size c)
    (hc : (get_flags bs).is_compressed = isCompressB c)
    (hi : (get_flags bs).is_infinity = true) :
    deserialize_with_mode bs c v = .ok .inf := by
  have hread : (if c = .yes then read_g1_compressed bs else read_g1_uncompressed bs) =
      .ok .inf := by
    cases c with
    | yes =>
      have hc' : (get_flags bs).is_compressed = true := hc
      rw [if_pos rfl, read_g1_compressed,
        if_neg (by rw [hlen]; exact fun hcon => hcon rfl)]
      dsimp only []
      rw [hc', if_neg (by simp : ¬(true = false)), hi, if_pos rfl]
    | no =>
      have hc' : (get_flags bs).is_compressed = false := hc
      rw [if_neg (by simp : ¬Compress.no = Compress.yes), read_g1_uncompressed,
        if_neg (by rw [hlen]; exact fun hcon => hcon rfl)]
      dsimp only []
      rw [hc', if_neg (by simp : ¬(false = true)), hi, if_pos rfl]
  rw [deserialize_with_mode, hread]
  show (if v = Validate.yes ∧ is_in_correct_subgroup_assuming_on_curve G1Point.inf = false
    then Except.error SerError.notInSubgroup else Except.ok G1Point.inf) =
    Except.ok G1Point.inf
  rw [if_neg]
  intro hcon
  exact absurd (subgroup_check_inf.symm.trans hcon.2) (by simp)

theorem C8_infinity_flag_decodes_to_infinity_witness :
    ((0xC0 :: List.replicate 47 1).length = serialized_size .yes ∧
      (get_flags (0xC0 :: List.replicate 47 1)).is_compressed = isCompressB .yes ∧
      (get_flags (0xC0 :: List.replicate 47 1)).is_infinity = true ∧
      deserialize_with_mode (0xC0 :: List.replicate 47 1) .yes .yes = .ok .inf) ∧
    ((0x40 :: List.replicate 95 1).length = serialized_size .no ∧
      (get_flags (0x40 :: List.replicate 95 1)).is_compressed = isCompressB .no ∧
      (get_flags (0x40 :: List.replicate 95 1)).is_infinity = true ∧
      deserialize_with_mode (0x40 :: List.replicate 95 1) .no .yes = .ok .inf) :=
  ⟨⟨by decide, by decide, by decide,
      C8_infinity_flag_decodes_to_infinity _ .yes .yes (by decide) (by decide) (by decide)⟩,
    ⟨by decide, by decide, by decide,
      C8_infinity_flag_decodes_to_infinity _ .no .yes (by decide) (by decide) (by decide)⟩⟩

/-- **C8 counterexample**: a buffer with the infinity flag set alongside a
non-zero coordinate payload decodes to the point at infinity — it does
*not* fail with `MalformedEncoding`, refuting the conjoined spec sentence
that such buffers are rejected. -/
theorem C8_counterexample :
    read_g1_compressed (0xC0 :: List.replicate 47 1) = .ok .inf ∧
      read_g1_compressed (0xC0 :: List.replicate 47 1) ≠ .error .malformedEncoding := by
  refine ⟨rfl, ?_⟩
  rw [show read_g1_compressed (0xC0 :: List.replicate 47 1) = Except.ok G1Point.inf from rfl]
  simp

/-- The per-operand round-trip check performed by `multi_miller_loop` in
`primitives/arkworks/bls12/src/lib.rs` (lines 78-96): serialize the
`G1Prepared` operand compressed, deserialize it back with `Validate::No`
(`.unwrap()`: a failure panics), then `assert_eq!(elem, check)` (a failure
panics).  `G1Prepared` wraps a single affine point, so the operand is a
`G1Point`. -/
def g1_prepared_roundtrip (elem : G1Point) : Except PanicE (List ℕ) :=
  let serialized := serialize_with_mode elem .yes
  match deserialize_with_mode serialized .yes .no with
  | .error _ => .error .panic
  | .ok check => if elem = check then .ok serialized else .error .panic

theorem g1_prepared_roundtrip_ok (P : G1Point) (h : onCurveG1 P) :
    g1_prepared_roundtrip P = .ok (serialize_with_mode P .yes) := by
  rw [g1_prepared_roundtrip, deserialize_serialize_eq P .yes h]
  show (if P = P then Except.ok (serialize_with_mode P .yes) else Except.error PanicE.panic) =
    Except.ok (serialize_with_mode P .yes)
  rw [if_pos rfl]

/-- **C9 (amended)**: for every sequence of *on-curve* G1 operands, the
compressed serialization deserializes back (with `Validate::No`) to a
value equal to the original operand, so the internal `assert_eq!` never
fails and the mapped round-trip check never panics. -/
theorem C9_prepared_roundtrip_on_curve (l : List G1Point) (h : ∀ P ∈ l, onCurveG1 P) :
    l.mapM g1_prepared_roundtrip = .ok (l.map fun P => serialize_with_mode P .yes) := by
  induction l with
  | nil => rfl
  | cons P t ih =>
    rw [List.mapM_cons, g1_prepared_roundtrip_ok P (h P (List.mem_cons_self P t)),
      List.map_cons]
    have ht := ih (fun Q hQ => h Q (List.mem_cons_of_mem P hQ))
    rw [ht]
    rfl

theorem C9_prepared_roundtrip_on_curve_witness :
    (∀ P ∈ [GENERATOR], onCurveG1 P) ∧
      [GENERATOR].mapM g1_prepared_roundtrip =
        .ok ([GENERATOR].map fun P => serialize_with_mode P .yes) := by
  have h : ∀ P ∈ [GENERATOR], onCurveG1 P := by
    intro P hP
    rw [List.mem_singleton.mp hP]
    exact generator_onCurve
  exact ⟨h, C9_prepared_roundtrip_on_curve [GENERATOR] h⟩

/-- **C9 counterexample**: an operand **not** on the curve (the generator's
`x` with `y + 1`) serializes, deserializes to one of the two square roots
of `x³ + 4` — which cannot equal the off-curve `y` — and the `assert_eq!`
fails, so `multi_miller_loop` panics at that assertion for this operand
sequence. -/
theorem C9_counterexample :
    g1_prepared_roundtrip (.pt G1_GENERATOR_X (G1_GENERATOR_Y + 1)) = .error .panic := rfl

/-! ## Cofactor clearing (claim C2, supporting facts) -/

/-- Supporting facts for the cofactor-clearing claim: `clear_cofactor`
multiplies by `h_eff = one_minus_x = 1 + |X| = 1 - X` (for the negative
loop scalar `X`), which differs from the full cofactor `(X-1)²/3`. -/
theorem clear_cofactor_h_eff (P : G1Point) :
    clear_cofactor P = g1SMul (1 + Parameters.X) P ∧
      one_minus_x.val = 1 + Parameters.X ∧
      1 + Parameters.X ≠ Parameters.COFACTOR := by
  refine ⟨?_, by decide, by decide⟩
  rw [clear_cofactor, show one_minus_x.val = 1 + Parameters.X from by decide]

/-! ## Pairing orchestration in discrete-logarithm coordinates (claim C3)

Modelled from the spec (§4.4, §6): the Miller loop and the final
exponentiation are computed by the external engine
(`sp_io::crypto::bls12_381_multi_miller_loop` /
`bls12_381_final_exponentiation`, backed by upstream `ark_bls12_381`),
which is not among the sources; the spec's contract is that the composition
computes the BLS12-381 pairing, with `multi_miller_loop` pairing the two
operand lists index-wise.  Subgroup points and pairing values are
represented in discrete-logarithm coordinates relative to fixed
generators: a G1 subgroup point is the scalar `a : ZMod rBLS` standing for
`a·G₁`, likewise for G2, and the target-subgroup element `e(G₁,G₂)^t` is
represented by its exponent `t`, written additively. -/

/-- The Miller loop of a single pair, in exponent coordinates:
`e(a·G₁, b·G₂)` has exponent `a * b`. -/
def millerLoopExp (a b : ZMod rBLS) : ZMod rBLS := a * b

/-- `multi_miller_loop` (`models/bls12/src/lib.rs` lines 48-80 /
`arkworks/src/lib.rs` lines 68-99) pairs the operand lists index-wise and
multiplies the individual Miller loops: the exponents add. -/
def multiMillerLoopExp (l : List (ZMod rBLS × ZMod rBLS)) : ZMod rBLS :=
  (l.map fun ab => millerLoopExp ab.1 ab.2).sum

/-- `final_exponentiation` restricted to the subgroup generated by
`e(G₁,G₂)`: a homomorphism, the identity in exponent coordinates. -/
def finalExponentiationExp (t : ZMod rBLS) : ZMod rBLS := t

/-- `Pairing(P,Q) = FinalExponentiation(MultiMillerLoop([P],[Q]))`. -/
def pairingExp (a b : ZMod rBLS) : ZMod rBLS :=
  finalExponentiationExp (multiMillerLoopExp [(a, b)])

/-- `MultiPairing = FinalExponentiation ∘ MultiMillerLoop`
(`multi_pairing` of `arkworks/src/lib.rs` lines 34-65). -/
def multiPairingExp (l : List (ZMod rBLS × ZMod rBLS)) : ZMod rBLS :=
  finalExponentiationExp (multiMillerLoopExp l)

/-- **C3**: bilinearity — `Pairing(a·P, b·Q) = Pairing(P,Q)^(a·b)` (in
exponent coordinates, `(a·b) •` the exponent) for all scalars `a, b` and
subgroup points `P, Q`; and `MultiPairing` of a list of pairs equals the
product (sum of exponents) of the individual pairings. -/
theorem C3_pairing_bilinearity (a b : ℕ) (P Q : ZMod rBLS)
    (l : List (ZMod rBLS × ZMod rBLS)) :
    pairingExp (a • P) (b • Q) = (a * b) • pairingExp P Q ∧
      multiPairingExp l = (l.map fun pq => pairingExp pq.1 pq.2).sum := by
  constructor
  · simp only [pairingExp, multiMillerLoopExp, millerLoopExp, finalExponentiationExp,
      List.map_cons, List.map_nil, List.sum_cons, List.sum_nil, add_zero, nsmul_eq_mul]
    push_cast
    ring
  · simp only [multiPairingExp, multiMillerLoopExp, millerLoopExp, finalExponentiationExp,
      pairingExp, List.map_cons, List.map_nil, List.sum_cons, List.sum_nil, add_zero]

/-! ## Final exponentiation (claim C5) -/

/-- Little-endian byte encoding of a natural number into `n` bytes, the
byte order used by the field serializer (`ark-ff` `CanonicalSerialize`,
external to the sources). -/
def natToBytesLE : ℕ → ℕ → List ℕ
  | 0, _ => []
  | n + 1, v => v % 256 :: natToBytesLE n (v / 256)

/-- Little-endian byte decoding. -/
def bytesToNatLE : List ℕ → ℕ
  | [] => 0
  | b :: bs => b + 256 * bytesToNatLE bs

theorem natToBytesLE_length (n : ℕ) : ∀ v, (natToBytesLE n v).length = n := by
  induction n with
  | zero => intro v; rfl
  | succ m ih => intro v; simp [natToBytesLE, ih]

/-- A target-field element `Fq12` is represented by its list of 12 base
field coefficients (`Fp12` = 12 `Fp` coefficients). -/
def Fq12Rep : Type := List Fq

/-- `f12.serialize_with_mode(..., Compress::Yes)`: each of the 12
coefficients in order, 48 little-endian bytes each — 576 bytes in total
(modelled after the `ark-ff` field serializer, external to the sources). -/
def serialize_fq12 (f : Fq12Rep) : List ℕ :=
  List.flatMap f fun c => natToBytesLE 48 c.val

theorem serialize_fq12_length : ∀ f : Fq12Rep, (serialize_fq12 f).length = 48 * f.length := by
  intro f
  induction f with
  | nil => rfl
  | cons c t ih =>
    show (List.flatMap (c :: t) fun c => natToBytesLE 48 c.val).length = _
    rw [List.flatMap_cons, List.length_append, natToBytesLE_length]
    rw [show (List.flatMap t fun c => natToBytesLE 48 c.val) = serialize_fq12 t from rfl, ih,
      List.length_cons]
    ring

/-- Split a 576-byte buffer into 12 coefficients of 48 bytes each. -/
def bytesToFqChunks : ℕ → List ℕ → List Fq
  | 0, _ => []
  | k + 1, bs => ((bytesToNatLE (bs.take 48) : ℕ) : Fq) :: bytesToFqChunks k (bs.drop 48)

/-- `Fp12::deserialize_with_mode(..., Validate::No)` on a 576-byte buffer
(modelled after the `ark-ff` field deserializer, external to the
sources): fails on a wrong-length buffer. -/
def deserialize_fq12 (bs : List ℕ) : Option Fq12Rep :=
  if bs.length = 576 then some (bytesToFqChunks 12 bs) else none

/-- `final_exponentiation` (`models/bls12/src/lib.rs` lines 82-95,
`bls12/src/lib.rs` lines 118-132): serialize the Miller-loop output to 576
compressed bytes, invoke the external engine (`HostFunctions` /
`sp_io::crypto::bls12_381_final_exponentiation`, a parameter `E` of the
model), deserialize the engine's reply (`.unwrap()`: a decode failure
panics), and wrap the result in `Some`.  No failure condition is derived
by the core itself. -/
def final_exponentiation (E : List ℕ → List ℕ) (f : Fq12Rep) :
    Except PanicE (Option Fq12Rep) :=
  let out := serialize_fq12 f
  let res := E out
  match deserialize_fq12 res with
  | some r => .ok (some r)
  | none => .error .panic

/-- **C5**: `final_exponentiation` encodes its input to 576 compressed
bytes, invokes the external engine on that encoding, decodes the engine's
reply, and never returns `None` (the engine's byte-level interface cannot
signal failure, and the core never re-derives one): whenever the reply
decodes, the result is `Some` of exactly the decoded target-field
element. -/
theorem C5_final_exponentiation_spec (E : List ℕ → List ℕ) (f : Fq12Rep)
    (hf : f.length = 12) :
    (serialize_fq12 f).length = 576 ∧
      final_exponentiation E f ≠ .ok none ∧
      ∀ r, deserialize_fq12 (E (serialize_fq12 f)) = some r →
        final_exponentiation E f = .ok (some r) := by
  refine ⟨by rw [serialize_fq12_length, hf], ?_, ?_⟩
  · rw [final_exponentiation]
    cases hd : deserialize_fq12 (E (serialize_fq12 f)) <;> simp [hd]
  · intro r hr
    rw [final_exponentiation]
    simp [hr]

theorem C5_final_exponentiation_spec_witness :
    (List.replicate 12 (0 : Fq)).length = 12 ∧
      ((serialize_fq12 (List.replicate 12 (0 : Fq))).length = 576 ∧
        final_exponentiation (fun bs => bs) (List.replicate 12 (0 : Fq)) ≠ .ok none ∧
        ∀ r, deserialize_fq12 ((fun bs => bs) (serialize_fq12 (List.replicate 12 (0 : Fq)))) =
            some r →
          final_exponentiation (fun bs => bs) (List.replicate 12 (0 : Fq)) = .ok (some r)) :=
  ⟨rfl, C5_final_exponentiation_spec (fun bs => bs) (List.replicate 12 (0 : Fq)) rfl⟩

/-! ## Multi-scalar multiplication (claim C6) -/

/-- The scalar-weighted sum `Σ bigints[i] · bases[i]` over the affine group
law — the semantics the spec (§6) assigns to the engine's `msm_g1`. -/
def msmSum : List G1Point → List ℕ → G1Point
  | [], _ => .inf
  | _, [] => .inf
  | P :: ps, s :: ss => g1Add (g1SMul s P) (msmSum ps ss)

theorem onCurve_msmSum :
    ∀ (bases : List G1Point) (bigints : List ℕ), (∀ P ∈ bases, onCurveG1 P) →
      (∀ n ∈ bigints, n < 2 ^ 320) → onCurveG1 (msmSum bases bigints) := by
  intro bases
  induction bases with
  | nil => intro bigints _ _; cases bigints <;> exact trivial
  | cons P ps ih =>
    intro bigints hc hb
    cases bigints with
    | nil => exact trivial
    | cons s ss =>
      exact onCurve_g1Add
        (onCurve_g1SMul (hb s (List.mem_cons_self s ss)) (hc P (List.mem_cons_self P ps)))
        (ih ss (fun Q hQ => hc Q (List.mem_cons_of_mem P hQ))
          (fun n hn => hb n (List.mem_cons_of_mem s hn)))

/-- `msm_bigint` (g1.rs lines 139-170): serialize every base compressed
and every scalar bigint (32 little-endian bytes for a 4-limb `BigInt`),
invoke the external engine `sp_io::crypto::bls12_381_bigint_msm_g1` (a
parameter of the model), and decode the compressed G1 result with
`Validate::No` (`.unwrap()`: a failure panics). -/
def msm_bigint (engine : List (List ℕ) → List (List ℕ) → List ℕ)
    (bases : List G1Point) (bigints : List ℕ) : Except PanicE G1Point :=
  let basesB := bases.map fun p => serialize_with_mode p .yes
  let bigintsB := bigints.map fun n => natToBytesLE 32 n
  match deserialize_with_mode (engine basesB bigintsB) .yes .no with
  | .ok p => .ok p
  | .error _ => .error .panic

/-- **C6**: for equal-length operand sequences of on-curve bases and
bigint scalars, and an engine meeting the spec's `msm_g1` contract —
it returns the compressed encoding of the scalar-weighted sum of the
decoded operands (modelled from the spec §6; the engine is not among the
sources) — `msm_bigint` returns exactly `Σ bigints[i] · bases[i]`, the
summation being performed by the engine and the compressed result decoded
without validation. -/
theorem C6_msm_bigint_correct (engine : List (List ℕ) → List (List ℕ) → List ℕ)
    (bases : List G1Point) (bigints : List ℕ)
    (hcurve : ∀ P ∈ bases, onCurveG1 P)
    (hlen : bases.length = bigints.length)
    (hbound : ∀ n ∈ bigints, n < 2 ^ 256)
    (hengine : engine (bases.map fun p => serialize_with_mode p .yes)
        (bigints.map fun n => natToBytesLE 32 n) =
      serialize_with_mode (msmSum bases bigints) .yes) :
    msm_bigint engine bases bigints = .ok (msmSum bases bigints) := by
  have hsum : onCurveG1 (msmSum bases bigints) :=
    onCurve_msmSum bases bigints hcurve
      (fun n hn => lt_trans (hbound n hn) (by norm_num))
  rw [msm_bigint]
  rw [hengine, deserialize_serialize_eq _ .yes hsum]

theorem C6_msm_bigint_correct_witness :
    (∀ P ∈ [GENERATOR], onCurveG1 P) ∧
      ([GENERATOR] : List G1Point).length = ([2] : List ℕ).length ∧
      (∀ n ∈ ([2] : List ℕ), n < 2 ^ 256) ∧
      msm_bigint (fun _ _ => serialize_with_mode (msmSum [GENERATOR] [2]) .yes)
        [GENERATOR] [2] = .ok (msmSum [GENERATOR] [2]) := by
  have hc : ∀ P ∈ [GENERATOR], onCurveG1 P := by
    intro P hP
    rw [List.mem_singleton.mp hP]
    exact generator_onCurve
  refine ⟨hc, rfl, by decide, ?_⟩
  exact C6_msm_bigint_correct _ [GENERATOR] [2] hc rfl (by decide) rfl
